import Mathlib

/-!
Verification of the history codec and row-lookup logic of `src/sheets.js`
(`parseHistory`, `normalizeHistoryForStorage`, `getRowByTrackingId`, and the
payload construction shared by `createRow`/`updateRow`).

JavaScript values are shallowly embedded as the inductive type `JVal`.
The `JSON.parse` / `JSON.stringify` builtins are modelled executably
(`jsonParse` / `renderVal`); numbers are modelled as integers (the code under
verification never relies on fractional numbers), and `toUpperCase` is
modelled on the ASCII range.  Exceptions are modelled with `Except String`.
-/

namespace Sheets

/-- A JavaScript value, as far as `sheets.js` can observe one: `undefined`,
`null`, booleans, (integer) numbers, strings, arrays, and plain objects
(insertion-ordered key/value lists). -/
inductive JVal where
  | vUndefined : JVal
  | vNull : JVal
  | vBool : Bool → JVal
  | vNum : Int → JVal
  | vStr : String → JVal
  | vArr : List JVal → JVal
  | vObj : List (String × JVal) → JVal

/-- `x === undefined` (strict equality against `undefined`). -/
def isVUndefined : JVal → Bool
  | .vUndefined => true
  | _ => false

/-- `x === null` (strict equality against `null`). -/
def isVNull : JVal → Bool
  | .vNull => true
  | _ => false

/-- `x === s` for a string literal `s` (strict equality against a string). -/
def isVStrEq (v : JVal) (s : String) : Bool :=
  match v with
  | .vStr t => t = s
  | _ => false

/-- JSON whitespace characters (space, tab, line feed, carriage return). -/
def isJsonWs (c : Char) : Bool :=
  c = ' ' ∨ c = '\t' ∨ c = '\n' ∨ c = '\r'

/-- Drop leading JSON whitespace. -/
def skipWs (cs : List Char) : List Char :=
  cs.dropWhile isJsonWs

/-- Lowercase hexadecimal digit for a value `< 16`, as emitted by
`JSON.stringify` for control-character escapes. -/
def hexDigitChar (n : Nat) : Char :=
  if n < 10 then Char.ofNat (48 + n) else Char.ofNat (87 + n)

/-- Decode one hexadecimal digit (as accepted inside `\uXXXX`). -/
def parseHexDigit (c : Char) : Option Nat :=
  if '0' ≤ c ∧ c ≤ '9' then some (c.toNat - 48)
  else if 'a' ≤ c ∧ c ≤ 'f' then some (c.toNat - 87)
  else if 'A' ≤ c ∧ c ≤ 'F' then some (c.toNat - 55)
  else none

/-- Combine four hexadecimal digits into a code unit value. -/
def hex4 (a b c d : Char) : Option Nat := do
  let x ← parseHexDigit a
  let y ← parseHexDigit b
  let z ← parseHexDigit c
  let w ← parseHexDigit d
  pure (x * 4096 + y * 256 + z * 16 + w)

/-- Decode a single-character JSON escape (the part after the backslash). -/
def escDecode (c : Char) : Option Char :=
  if c = '"' then some '"'
  else if c = '\\' then some '\\'
  else if c = '/' then some '/'
  else if c = 'b' then some (Char.ofNat 8)
  else if c = 'f' then some (Char.ofNat 12)
  else if c = 'n' then some '\n'
  else if c = 'r' then some '\r'
  else if c = 't' then some '\t'
  else none

/-- Prepend a character to the content part of a string-body parse result. -/
def consStr (c : Char) : Option (List Char × List Char) → Option (List Char × List Char)
  | some (s, r) => some (c :: s, r)
  | none => none

/-- Parse the body of a JSON string literal (everything after the opening
quote), returning the decoded content and the input remaining after the
closing quote.  Fuel counts character groups (one escape sequence or one
plain character per unit), so any fuel above the input length is enough.
`\uXXXX` escapes combine surrogate pairs; a lone surrogate is rejected (such
inputs would denote strings outside well-formed Unicode, which `String`
cannot represent). -/
def parseStrBody : Nat → List Char → Option (List Char × List Char)
  | 0, _ => none
  | _, [] => none
  | fuel + 1, c :: cs =>
    if c = '"' then some ([], cs)
    else if c = '\\' then
      match cs with
      | [] => none
      | e :: cs2 =>
        match escDecode e with
        | some d => consStr d (parseStrBody fuel cs2)
        | none =>
          if e = 'u' then
            match cs2 with
            | a :: b :: c3 :: d :: cs3 =>
              match hex4 a b c3 d with
              | none => none
              | some n =>
                if n < 0xD800 ∨ 0xE000 ≤ n then
                  consStr (Char.ofNat n) (parseStrBody fuel cs3)
                else if n < 0xDC00 then
                  match cs3 with
                  | '\\' :: 'u' :: a2 :: b2 :: c4 :: d2 :: cs4 =>
                    match hex4 a2 b2 c4 d2 with
                    | some m =>
                      if 0xDC00 ≤ m ∧ m < 0xE000 then
                        consStr (Char.ofNat (0x10000 + (n - 0xD800) * 0x400 + (m - 0xDC00)))
                          (parseStrBody fuel cs4)
                      else none
                    | none => none
                  | _ => none
                else none
            | _ => none
          else none
    else if c.toNat < 0x20 then none
    else consStr c (parseStrBody fuel cs)

/-- Numeric value of a (non-empty) digit list. -/
def digitsToNat (ds : List Char) : Nat :=
  ds.foldl (fun a c => a * 10 + (c.toNat - 48)) 0

/-- Parse an unsigned JSON integer (no leading zeros).  Fractional and
exponent parts of JSON numbers are not modelled: the code under verification
never depends on non-integer numeric values. -/
def parseNatNum (cs : List Char) : Option (Nat × List Char) :=
  let ds := cs.takeWhile Char.isDigit
  let rest := cs.dropWhile Char.isDigit
  if ds.isEmpty then none
  else if 1 < ds.length ∧ ds.headD ' ' = '0' then none
  else some (digitsToNat ds, rest)

/-- Parse a JSON number (modelled as an integer). -/
def parseNumber : List Char → Option (JVal × List Char)
  | '-' :: cs =>
    match parseNatNum cs with
    | some (n, rest) => some (.vNum (-(n : Int)), rest)
    | none => none
  | cs =>
    match parseNatNum cs with
    | some (n, rest) => some (.vNum (n : Int), rest)
    | none => none

/-- Parse one of the literals `null`, `true`, `false`. -/
def parseLit (cs : List Char) : Option (JVal × List Char) :=
  if cs.take 4 = "null".data then some (.vNull, cs.drop 4)
  else if cs.take 4 = "true".data then some (.vBool true, cs.drop 4)
  else if cs.take 5 = "false".data then some (.vBool false, cs.drop 5)
  else none

mutual

/-- Fuel-indexed JSON value parser (the model of `JSON.parse`'s grammar).
Returns the parsed value and the unconsumed input. -/
def parseVal : Nat → List Char → Option (JVal × List Char)
  | 0, _ => none
  | fuel + 1, cs =>
    match skipWs cs with
    | [] => none
    | c :: rest =>
      if c = '"' then
        match parseStrBody (rest.length + 1) rest with
        | some (s, r) => some (.vStr ⟨s⟩, r)
        | none => none
      else if c = '[' then
        if (skipWs rest).headD ' ' = ']' then some (.vArr [], (skipWs rest).tail)
        else
          match parseElems fuel rest with
          | some (vs, r) => some (.vArr vs, r)
          | none => none
      else if c = '{' then
        if (skipWs rest).headD ' ' = '}' then some (.vObj [], (skipWs rest).tail)
        else
          match parseMembers fuel rest with
          | some (ms, r) => some (.vObj ms, r)
          | none => none
      else if c = 'n' ∨ c = 't' ∨ c = 'f' then parseLit (c :: rest)
      else parseNumber (c :: rest)

/-- Parse the (non-empty) element list of a JSON array, up to and including
the closing bracket. -/
def parseElems : Nat → List Char → Option (List JVal × List Char)
  | 0, _ => none
  | fuel + 1, cs =>
    match parseVal fuel cs with
    | none => none
    | some (v, r) =>
      match skipWs r with
      | [] => none
      | c :: r2 =>
        if c = ',' then
          match parseElems fuel r2 with
          | some (vs, r3) => some (v :: vs, r3)
          | none => none
        else if c = ']' then some ([v], r2)
        else none

/-- Parse the (non-empty) member list of a JSON object, up to and including
the closing brace. -/
def parseMembers : Nat → List Char → Option (List (String × JVal) × List Char)
  | 0, _ => none
  | fuel + 1, cs =>
    match skipWs cs with
    | [] => none
    | c :: rest =>
      if c = '"' then
        match parseStrBody (rest.length + 1) rest with
        | none => none
        | some (k, r) =>
          match skipWs r with
          | [] => none
          | c2 :: r2 =>
            if c2 = ':' then
              match parseVal fuel r2 with
              | none => none
              | some (v, r3) =>
                match skipWs r3 with
                | [] => none
                | c3 :: r4 =>
                  if c3 = ',' then
                    match parseMembers fuel r4 with
                    | some (ms, r5) => some ((⟨k⟩, v) :: ms, r5)
                    | none => none
                  else if c3 = '}' then some ([(⟨k⟩, v)], r4)
                  else none
            else none
      else none

end

/-- Model of `JSON.parse`: parse a complete JSON text (trailing whitespace
allowed), or `none` where `JSON.parse` would throw a `SyntaxError`. -/
def jsonParse (s : String) : Option JVal :=
  match parseVal (s.data.length + 1) s.data with
  | some (v, rest) => if (skipWs rest).isEmpty then some v else none
  | none => none

/-- Escape one character as inside a `JSON.stringify`d string literal. -/
def escChar (c : Char) : List Char :=
  if c = '"' then ['\\', '"']
  else if c = '\\' then ['\\', '\\']
  else if c = Char.ofNat 8 then ['\\', 'b']
  else if c = Char.ofNat 9 then ['\\', 't']
  else if c = Char.ofNat 10 then ['\\', 'n']
  else if c = Char.ofNat 12 then ['\\', 'f']
  else if c = Char.ofNat 13 then ['\\', 'r']
  else if c.toNat < 0x20 then ['\\', 'u', '0', '0', hexDigitChar (c.toNat / 16), hexDigitChar (c.toNat % 16)]
  else [c]

/-- Escape the contents of a string as `JSON.stringify` does. -/
def escString (s : String) : List Char :=
  s.data.flatMap escChar

/-- Render a string as a quoted JSON string literal. -/
def renderStr (s : String) : List Char :=
  '"' :: escString s ++ ['"']

/-- `true` iff some member of the list survives `JSON.stringify` (i.e. its
value is not `undefined`). -/
def hasDefinedMember : List (String × JVal) → Bool
  | [] => false
  | (_, v) :: xs => if isVUndefined v then hasDefinedMember xs else true

mutual

/-- Model of `JSON.stringify` (for a non-`undefined` top-level value): render
a `JVal` as compact JSON text.  Inside arrays `undefined` renders as `null`;
`undefined`-valued object members are skipped, as `JSON.stringify` does. -/
def renderVal : JVal → List Char
  | .vUndefined => "null".data
  | .vNull => "null".data
  | .vBool true => "true".data
  | .vBool false => "false".data
  | .vNum n => (toString n).data
  | .vStr s => renderStr s
  | .vArr xs => '[' :: renderElems xs
  | .vObj xs => '{' :: renderMembers xs

/-- Render array elements, up to and including the closing bracket. -/
def renderElems : List JVal → List Char
  | [] => [']']
  | [x] => renderVal x ++ [']']
  | x :: xs => renderVal x ++ ',' :: renderElems xs

/-- Render object members, up to and including the closing brace, skipping
`undefined`-valued members. -/
def renderMembers : List (String × JVal) → List Char
  | [] => ['}']
  | (k, v) :: xs =>
    if isVUndefined v then renderMembers xs
    else
      renderStr k ++ ':' :: renderVal v ++
        (if hasDefinedMember xs then ',' :: renderMembers xs else ['}'])

end

/-- The ECMAScript `String.prototype.trim` whitespace set (WhiteSpace and
LineTerminator code points, including NBSP and the Unicode space
separators). -/
def isJsWs (c : Char) : Bool :=
  c.toNat = 0x9 ∨ c.toNat = 0xA ∨ c.toNat = 0xB ∨ c.toNat = 0xC ∨ c.toNat = 0xD ∨
  c.toNat = 0x20 ∨ c.toNat = 0xA0 ∨ c.toNat = 0x1680 ∨
  (0x2000 ≤ c.toNat ∧ c.toNat ≤ 0x200A) ∨
  c.toNat = 0x2028 ∨ c.toNat = 0x2029 ∨ c.toNat = 0x202F ∨ c.toNat = 0x205F ∨
  c.toNat = 0x3000 ∨ c.toNat = 0xFEFF

/-- Strip leading and trailing JS whitespace from a character list. -/
def jsTrimChars (l : List Char) : List Char :=
  ((l.dropWhile isJsWs).reverse.dropWhile isJsWs).reverse

/-- Model of JavaScript `String.prototype.trim`. -/
def jsTrim (s : String) : String :=
  ⟨jsTrimChars s.data⟩

/-- `s.replace(/ /g, ' ')`: replace non-breaking spaces by spaces. -/
def replaceNbsp (s : String) : String :=
  ⟨s.data.map (fun c => if c = Char.ofNat 0xA0 then ' ' else c)⟩

/-- Model of `String.prototype.toUpperCase`, on the ASCII range (the only
range the code under verification relies on). -/
def jsToUpper (s : String) : String :=
  ⟨s.data.map Char.toUpper⟩

/-- `s.startsWith(c)` for a one-character search string. -/
def strStartsWithChar (s : String) (c : Char) : Bool :=
  s.data.headD ' ' = c ∧ ¬ s.data.isEmpty

/-- A JavaScript LineTerminator (not matched by `.` in a regex without the
`s` flag). -/
def isLineTerm (c : Char) : Bool :=
  c.toNat = 0xA ∨ c.toNat = 0xD ∨ c.toNat = 0x2028 ∨ c.toNat = 0x2029

/-- Model of `s.replace(/^"(.+)"$/, '$1')`: if the whole string is a quote,
one or more non-line-terminator characters, and a closing quote, keep only
the middle; otherwise the string is unchanged. -/
def stripOuterQuotes (l : List Char) : List Char :=
  match l with
  | '"' :: rest =>
    if 2 ≤ rest.length ∧ rest.getLast? = some '"' ∧ rest.dropLast.all (fun c => ¬ isLineTerm c)
    then rest.dropLast
    else l
  | _ => l

/-- Model of `s.replace(/\\"/g, '"')`: left-to-right replacement of every
backslash-quote pair by a quote. -/
def unescQuotes : List Char → List Char
  | '\\' :: '"' :: rest => '"' :: unescQuotes rest
  | c :: rest => c :: unescQuotes rest
  | [] => []

/-- The "forgiving" recovery applied to a double-encoded history string:
`trimmed.replace(/^"(.+)"$/, '$1').replace(/\\"/g, '"')`. -/
def unescapeDouble (s : String) : String :=
  ⟨unescQuotes (stripOuterQuotes s.data)⟩

mutual

/-- Model of JavaScript `String(x)` coercion. -/
def jsToString : JVal → String
  | .vUndefined => "undefined"
  | .vNull => "null"
  | .vBool true => "true"
  | .vBool false => "false"
  | .vNum n => toString n
  | .vStr s => s
  | .vArr xs => String.intercalate "," (jsToStringElems xs)
  | .vObj _ => "[object Object]"

/-- Elementwise string coercion used by `Array.prototype.join` (`null` and
`undefined` elements become the empty string). -/
def jsToStringElems : List JVal → List String
  | [] => []
  | x :: xs =>
    (match x with
     | .vUndefined => ""
     | .vNull => ""
     | y => jsToString y) :: jsToStringElems xs

end

/-- JavaScript truthiness of a value. -/
def jsTruthy : JVal → Bool
  | .vUndefined => false
  | .vNull => false
  | .vBool b => b
  | .vNum n => n ≠ 0
  | .vStr s => s ≠ ""
  | .vArr _ => true
  | .vObj _ => true

/-- JavaScript `a || b`. -/
def jsOr (a b : JVal) : JVal :=
  if jsTruthy a then a else b

/-- `Array.isArray(parsed) ? parsed : []`. -/
def asArray : JVal → List JVal
  | .vArr xs => xs
  | _ => []

/-- The single-entry wrap `{ date: '', location: '', message: msg }` used for
plain-text history cells. -/
def wrapEntry (msg : String) : JVal :=
  .vObj [("date", .vStr ""), ("location", .vStr ""), ("message", .vStr msg)]

/-- A JavaScript `try`/`catch` over the exception monad. -/
def tryCatchE {α : Type} (x : Except String α) (h : String → Except String α) : Except String α :=
  match x with
  | .ok a => .ok a
  | .error e => h e

/-- `JSON.parse` in the exception monad: a failed parse is a thrown
`SyntaxError`. -/
def jsonParseE (s : String) : Except String JVal :=
  match jsonParse s with
  | some v => .ok v
  | none => .error "SyntaxError"

/-- Embedding of `parseHistory` (src/sheets.js lines 30-64): robustly decode
a `history` cell into a list of entries; never throws. -/
def parseHistory (historyStr : JVal) : Except String (List JVal) :=
  tryCatchE
    (if isVUndefined historyStr ∨ isVNull historyStr ∨ isVStrEq historyStr "" then .ok []
     else
       match historyStr with
       | .vArr xs => .ok xs
       | .vObj _ => .ok []
       | .vStr s =>
         let trimmed := jsTrim s
         if strStartsWithChar trimmed '[' ∨ strStartsWithChar trimmed '{' then
           tryCatchE
             (do
               let parsed ← jsonParseE trimmed
               pure (asArray parsed))
             (fun _ =>
               tryCatchE
                 (do
                   let parsed2 ← jsonParseE (unescapeDouble trimmed)
                   pure (asArray parsed2))
                 (fun _ => .ok []))
         else .ok [wrapEntry trimmed]
       | _ => .ok [])
    (fun _ => .ok [])

/-- Embedding of `normalizeHistoryForStorage` (src/sheets.js lines 67-93):
encode a history value as the JSON string to store; never throws.
`JSON.stringify` is applied only to arrays and plain objects here, where it
always yields a string, so it appears as `renderVal`. -/
def normalizeHistoryForStorage (history : JVal) : Except String String :=
  tryCatchE
    (if isVUndefined history ∨ isVNull history then .ok "[]"
     else
       match history with
       | .vArr xs => .ok ⟨renderVal (.vArr xs)⟩
       | .vStr s =>
         let trimmed := jsTrim s
         if strStartsWithChar trimmed '[' ∨ strStartsWithChar trimmed '{' then
           tryCatchE
             (do
               let parsed ← jsonParseE trimmed
               pure (String.mk (renderVal (.vArr (asArray parsed)))))
             (fun _ =>
               tryCatchE
                 (do
                   let parsed2 ← jsonParseE (unescapeDouble trimmed)
                   pure (String.mk (renderVal (.vArr (asArray parsed2)))))
                 (fun _ => .ok ⟨renderVal (.vArr [wrapEntry trimmed])⟩))
         else .ok ⟨renderVal (.vArr [wrapEntry trimmed])⟩
       | _ => .ok "[]")
    (fun _ => .ok "[]")

/-- Header-row cell preprocessing (src/sheets.js line 326): trim string
cells, keep other cells as they are. -/
def headerCell (h : JVal) : JVal :=
  match h with
  | .vStr s => .vStr (jsTrim s)
  | v => v

/-- The raw text of the identifier cell of a row (src/sheets.js line 335):
an absent (`undefined`) cell reads as the empty string, any other value is
string-coerced. -/
def rawCellString (row : List JVal) (idx : Nat) : String :=
  if isVUndefined (row.getD idx .vUndefined) then "" else jsToString (row.getD idx .vUndefined)

/-- Assignment `obj[k] = v` on an insertion-ordered object: update in place
if the key exists, else append. -/
def upsertA (l : List (String × JVal)) (k : String) (v : JVal) : List (String × JVal) :=
  match l with
  | [] => [(k, v)]
  | (k0, v0) :: rest => if k0 = k then (k0, v) :: rest else (k0, v0) :: upsertA rest k v

/-- The row-to-record mapping of src/sheets.js lines 339-343: for each header
column (by position), take the row's cell (absent cells read as `''`), decode
the `history` column with `parseHistory`, and assign it under the
(string-coerced) header name. -/
def mapRowObjAux (row : List JVal) : List JVal → Nat → List (String × JVal) →
    Except String (List (String × JVal))
  | [], _, obj => .ok obj
  | h :: hs, idx, obj => do
    let val := if isVUndefined (row.getD idx .vUndefined) then .vStr "" else row.getD idx .vUndefined
    let vout ←
      if isVStrEq h "history" then do
        let parsed ← parseHistory val
        pure (JVal.vArr parsed)
      else pure val
    mapRowObjAux row hs (idx + 1) (upsertA obj (jsToString h) vout)

/-- Map one data row to a record object, given the (trimmed) header row. -/
def mapRowObj (headers row : List JVal) : Except String (List (String × JVal)) :=
  mapRowObjAux row headers 0 []

/-- The scan loop of src/sheets.js lines 333-346: normalize each row's
identifier cell (NBSP to space, trim, uppercase) and compare with the
needle; on the first match return the sheet row position (`i + 2`) and the
mapped record. -/
def scanRows (headers : List JVal) (trackingIdx : Nat) (needle : String) :
    List (List JVal) → Nat → Except String (Option (Nat × List (String × JVal)))
  | [], _ => .ok none
  | row :: rest, i =>
    let cell := jsToUpper (jsTrim (replaceNbsp (rawCellString row trackingIdx)))
    if cell = needle then do
      let obj ← mapRowObj headers row
      pure (some (i + 2, obj))
    else scanRows headers trackingIdx needle rest (i + 1)

/-- Embedding of `getRowByTrackingId` (src/sheets.js lines 316-348), given
the fetched cell grid `vals` (header row first).  Returns `none` for "not
found" (`null` in the source) and `Except.error` for a thrown error. -/
def getRowByTrackingId (trackingId : JVal) (vals : List (List JVal)) :
    Except String (Option (Nat × List (String × JVal))) :=
  if ¬ jsTruthy trackingId then .ok none
  else if vals.length < 2 then .ok none
  else
    let headers := (vals.headD []).map headerCell
    match headers.findIdx? (fun h => jsTrim (jsToString h) = "trackingId") with
    | none => .error "trackingId column not found in headers"
    | some trackingIdx =>
      let rows := vals.tail
      let needle := jsToUpper (jsTrim (jsToString trackingId))
      scanRows headers trackingIdx needle rows 0

/-- The stringification of a non-`history` field in a payload (src/sheets.js
lines 358 and 385): present and non-null fields are string-coerced, the rest
become the empty string. -/
def fieldString (rowData : List (String × JVal)) (h : JVal) : String :=
  match (rowData.find? (fun p => p.1 = jsToString h)).map Prod.snd with
  | none => ""
  | some .vUndefined => ""
  | some .vNull => ""
  | some v => jsToString v

/-- Field lookup `rowData[k]` on a record object (absent fields read as
`undefined`). -/
def getField (rowData : List (String × JVal)) (k : String) : JVal :=
  match (rowData.find? (fun p => p.1 = k)).map Prod.snd with
  | none => .vUndefined
  | some v => v

/-- Embedding of the payload construction shared by `createRow`
(src/sheets.js lines 356-359) and `updateRow` (lines 383-386): one cell per
header column, in header order; the `history` column is encoded with
`normalizeHistoryForStorage (rowData.history || [])`. -/
def buildPayload (headers : List JVal) (rowData : List (String × JVal)) :
    Except String (List String) :=
  match headers with
  | [] => .ok []
  | h :: hs => do
    let cell ←
      if isVStrEq h "history" then
        normalizeHistoryForStorage (jsOr (getField rowData "history") (.vArr []))
      else pure (fieldString rowData h)
    let rest ← buildPayload hs rowData
    pure (cell :: rest)

/-- The list `Decode` produces (defined, since decoding never throws). -/
def decodeResult (v : JVal) : List JVal :=
  match parseHistory v with
  | .ok l => l
  | .error _ => []

/-- The string `Encode` produces (defined, since encoding never throws). -/
def encodeResult (v : JVal) : String :=
  match normalizeHistoryForStorage v with
  | .ok s => s
  | .error _ => "[]"

/-- The record `mapRowObjAux` builds (pure form; decoding never throws). -/
def rowRecordAux (row : List JVal) : List JVal → Nat → List (String × JVal) → List (String × JVal)
  | [], _, obj => obj
  | h :: hs, idx, obj =>
    let val := if isVUndefined (row.getD idx .vUndefined) then .vStr "" else row.getD idx .vUndefined
    let vout := if isVStrEq h "history" then JVal.vArr (decodeResult val) else val
    rowRecordAux row hs (idx + 1) (upsertA obj (jsToString h) vout)

/-- The record a data row maps to, given the (trimmed) header row. -/
def rowRecord (headers row : List JVal) : List (String × JVal) :=
  rowRecordAux row headers 0 []

/-- The normalized needle (text-coerce, trim, uppercase — no NBSP
replacement). -/
def needleNorm (t : JVal) : String :=
  jsToUpper (jsTrim (jsToString t))

/-- The normalized identifier cell of a row (NBSP to space, trim,
uppercase). -/
def cellNorm (row : List JVal) (idx : Nat) : String :=
  jsToUpper (jsTrim (replaceNbsp (rawCellString row idx)))

/-- A string value. -/
def isStrVal : JVal → Bool
  | .vStr _ => true
  | _ => false

/-- A history entry value whose fields are all strings (the well-formed
entries of the round-trip claim). -/
def isWfEntry : JVal → Bool
  | .vObj fields => fields.all (fun p => isStrVal p.2)
  | _ => false

/-- Fuel sufficient for `parseVal` on one rendered well-formed entry. -/
def entryFuel : JVal → Nat
  | .vObj [] => 1
  | .vObj fields => fields.length + 2
  | _ => 1

/-- Fuel sufficient for `parseElems` on a rendered list of well-formed
entries. -/
def elemsFuel : List JVal → Nat
  | [] => 0
  | e :: es => 1 + entryFuel e + elemsFuel es


/-! Totality of the codec -/

theorem tryCatchE_ok_catch {α : Type} (x : Except String α) (d : α) :
    ∃ a, tryCatchE x (fun _ => .ok d) = .ok a := by
  cases x with
  | ok a => exact ⟨a, rfl⟩
  | error e => exact ⟨d, rfl⟩

theorem parseHistory_ok (v : JVal) : ∃ l, parseHistory v = .ok l := by
  unfold parseHistory
  exact tryCatchE_ok_catch _ _

theorem normalizeHistoryForStorage_ok (v : JVal) : ∃ s, normalizeHistoryForStorage v = .ok s := by
  unfold normalizeHistoryForStorage
  exact tryCatchE_ok_catch _ _



theorem parseHistory_eq (v : JVal) : parseHistory v = .ok (decodeResult v) := by
  obtain ⟨l, h⟩ := parseHistory_ok v
  simp [decodeResult, h]

theorem normalizeHistoryForStorage_eq (v : JVal) :
    normalizeHistoryForStorage v = .ok (encodeResult v) := by
  obtain ⟨s, h⟩ := normalizeHistoryForStorage_ok v
  simp [encodeResult, h]

/-- Claim C3: for every input of any shape (undefined, null, array, non-array
object, or arbitrary string), `Decode` (`parseHistory`) never raises, and
`Encode` (`normalizeHistoryForStorage`) never raises. -/
theorem decode_encode_never_raise :
    (∀ v : JVal, ∃ l, parseHistory v = .ok l) ∧
    (∀ v : JVal, ∃ s, normalizeHistoryForStorage v = .ok s) :=
  ⟨parseHistory_ok, normalizeHistoryForStorage_ok⟩

/-! Decoding of trivial and plain-text inputs -/

/-- Claim C8: `Decode` maps `undefined`, `null` and `""` to the empty sequence,
and maps every non-empty string whose trimmed form does not start with `[`
or `{` to the single-entry wrap with the trimmed text as message; in
particular `Decode("not json")` is that wrap of `"not json"`. -/
theorem decode_defaults_and_plain_text :
    parseHistory .vUndefined = .ok [] ∧
    parseHistory .vNull = .ok [] ∧
    parseHistory (.vStr "") = .ok [] ∧
    parseHistory (.vStr "not json") = .ok [wrapEntry "not json"] ∧
    ∀ s : String, s ≠ "" →
      strStartsWithChar (jsTrim s) '[' = false →
      strStartsWithChar (jsTrim s) '{' = false →
      parseHistory (.vStr s) = .ok [wrapEntry (jsTrim s)] := by
  refine ⟨rfl, rfl, rfl, rfl, ?_⟩
  intro s hne hbr hbc
  simp only [parseHistory, isVUndefined, isVNull, isVStrEq, tryCatchE]
  simp [hne, hbr, hbc]

theorem decode_defaults_and_plain_text_witness :
    parseHistory (.vStr " plain text ") = .ok [wrapEntry "plain text"] :=
  decode_defaults_and_plain_text.2.2.2.2 " plain text " (by decide) (by rfl) (by rfl)

/-! The decode/encode cascade, branch by branch -/

theorem strStartsWithChar_ne_empty {t : String} {c : Char}
    (h : strStartsWithChar t c = true) : t ≠ "" := by
  intro he
  subst he
  simp [strStartsWithChar] at h

theorem jsTrim_empty : jsTrim "" = "" := rfl

theorem parseHistory_plain (s : String) (hne : s ≠ "")
    (hbr : strStartsWithChar (jsTrim s) '[' = false)
    (hbc : strStartsWithChar (jsTrim s) '{' = false) :
    parseHistory (.vStr s) = .ok [wrapEntry (jsTrim s)] := by
  simp only [parseHistory, isVUndefined, isVNull, isVStrEq, tryCatchE]
  simp [hne, hbr, hbc]

theorem normalize_plain (s : String)
    (hbr : strStartsWithChar (jsTrim s) '[' = false)
    (hbc : strStartsWithChar (jsTrim s) '{' = false) :
    normalizeHistoryForStorage (.vStr s) = .ok ⟨renderVal (.vArr [wrapEntry (jsTrim s)])⟩ := by
  simp only [normalizeHistoryForStorage, isVUndefined, isVNull, tryCatchE]
  simp [hbr, hbc]

theorem parseHistory_brack_parse (s : String)
    (hbr : strStartsWithChar (jsTrim s) '[' = true ∨ strStartsWithChar (jsTrim s) '{' = true)
    (v : JVal) (hp : jsonParse (jsTrim s) = some v) :
    parseHistory (.vStr s) = .ok (asArray v) := by
  have hne : s ≠ "" := by
    intro he
    subst he
    simp [jsTrim_empty] at hbr
    rcases hbr with h | h <;> simp [strStartsWithChar] at h
  simp only [parseHistory, isVUndefined, isVNull, isVStrEq]
  simp [hne, hbr, jsonParseE, hp, tryCatchE]

theorem normalize_brack_parse (s : String)
    (hbr : strStartsWithChar (jsTrim s) '[' = true ∨ strStartsWithChar (jsTrim s) '{' = true)
    (v : JVal) (hp : jsonParse (jsTrim s) = some v) :
    normalizeHistoryForStorage (.vStr s) = .ok ⟨renderVal (.vArr (asArray v))⟩ := by
  simp only [normalizeHistoryForStorage, isVUndefined, isVNull]
  simp [hbr, jsonParseE, hp, tryCatchE]

theorem parseHistory_brack_reparse (s : String)
    (hbr : strStartsWithChar (jsTrim s) '[' = true ∨ strStartsWithChar (jsTrim s) '{' = true)
    (hp : jsonParse (jsTrim s) = none) (v : JVal)
    (hp2 : jsonParse (unescapeDouble (jsTrim s)) = some v) :
    parseHistory (.vStr s) = .ok (asArray v) := by
  have hne : s ≠ "" := by
    intro he
    subst he
    simp [jsTrim_empty] at hbr
    rcases hbr with h | h <;> simp [strStartsWithChar] at h
  simp only [parseHistory, isVUndefined, isVNull, isVStrEq]
  simp [hne, hbr, jsonParseE, hp, hp2, tryCatchE]

theorem normalize_brack_reparse (s : String)
    (hbr : strStartsWithChar (jsTrim s) '[' = true ∨ strStartsWithChar (jsTrim s) '{' = true)
    (hp : jsonParse (jsTrim s) = none) (v : JVal)
    (hp2 : jsonParse (unescapeDouble (jsTrim s)) = some v) :
    normalizeHistoryForStorage (.vStr s) = .ok ⟨renderVal (.vArr (asArray v))⟩ := by
  simp only [normalizeHistoryForStorage, isVUndefined, isVNull]
  simp [hbr, jsonParseE, hp, hp2, tryCatchE]

theorem parseHistory_brack_fail (s : String)
    (hbr : strStartsWithChar (jsTrim s) '[' = true ∨ strStartsWithChar (jsTrim s) '{' = true)
    (hp : jsonParse (jsTrim s) = none)
    (hp2 : jsonParse (unescapeDouble (jsTrim s)) = none) :
    parseHistory (.vStr s) = .ok [] := by
  have hne : s ≠ "" := by
    intro he
    subst he
    simp [jsTrim_empty] at hbr
    rcases hbr with h | h <;> simp [strStartsWithChar] at h
  simp only [parseHistory, isVUndefined, isVNull, isVStrEq]
  simp [hne, hbr, jsonParseE, hp, hp2, tryCatchE]

theorem normalize_brack_fail (s : String)
    (hbr : strStartsWithChar (jsTrim s) '[' = true ∨ strStartsWithChar (jsTrim s) '{' = true)
    (hp : jsonParse (jsTrim s) = none)
    (hp2 : jsonParse (unescapeDouble (jsTrim s)) = none) :
    normalizeHistoryForStorage (.vStr s) = .ok ⟨renderVal (.vArr [wrapEntry (jsTrim s)])⟩ := by
  simp only [normalizeHistoryForStorage, isVUndefined, isVNull]
  simp [hbr, jsonParseE, hp, hp2, tryCatchE]

/-- Claim C2 (counterexample): at the input `"["` — a string starting with `[`
that fails both the strict and the forgiving parse — `Decode` yields the
empty sequence, but `Encode` does not produce the serialization of that
empty sequence: it wraps the text as a single-entry message instead.  So
`Encode` does not apply the same classification as the decode steps. -/
theorem encode_decode_classification_counterexample :
    parseHistory (.vStr "[") = .ok [] ∧
    normalizeHistoryForStorage (.vStr "[") = .ok ⟨renderVal (.vArr [wrapEntry "["])⟩ ∧
    String.mk (renderVal (.vArr [wrapEntry "["])) ≠ String.mk (renderVal (.vArr [])) := by
  refine ⟨rfl, rfl, by decide⟩

/-- Claim C2 (amended): `Encode` on a string applies the same classification as the
decode steps and re-serializes the recovered value — except in two cases:
a string whose trimmed form starts with `[` or `{` but fails both the strict
and the forgiving parse is re-serialized as the single-entry plain-text wrap
(while `Decode` classifies it as empty), and the empty string (which `Decode`
short-circuits to the empty sequence) is encoded as the wrap of the empty
message. -/
theorem encode_matches_decode_classification (s : String) :
    (s = "" →
      parseHistory (.vStr s) = .ok [] ∧
      normalizeHistoryForStorage (.vStr s) = .ok ⟨renderVal (.vArr [wrapEntry ""])⟩) ∧
    ((strStartsWithChar (jsTrim s) '[' = true ∨ strStartsWithChar (jsTrim s) '{' = true) →
      jsonParse (jsTrim s) = none → jsonParse (unescapeDouble (jsTrim s)) = none →
      parseHistory (.vStr s) = .ok [] ∧
      normalizeHistoryForStorage (.vStr s) = .ok ⟨renderVal (.vArr [wrapEntry (jsTrim s)])⟩) ∧
    (s ≠ "" →
      (¬ (strStartsWithChar (jsTrim s) '[' = true ∨ strStartsWithChar (jsTrim s) '{' = true)
        ∨ jsonParse (jsTrim s) ≠ none
        ∨ jsonParse (unescapeDouble (jsTrim s)) ≠ none) →
      normalizeHistoryForStorage (.vStr s) = .ok ⟨renderVal (.vArr (decodeResult (.vStr s)))⟩) := by
  refine ⟨?_, ?_, ?_⟩
  · intro he
    subst he
    exact ⟨rfl, rfl⟩
  · intro hbr hp hp2
    exact ⟨parseHistory_brack_fail s hbr hp hp2, normalize_brack_fail s hbr hp hp2⟩
  · intro hne hcase
    have hdr : ∀ l, parseHistory (.vStr s) = .ok l → decodeResult (.vStr s) = l := by
      intro l hl
      have := parseHistory_eq (.vStr s)
      rw [hl] at this
      exact (Except.ok.inj this).symm
    by_cases hbr : strStartsWithChar (jsTrim s) '[' = true ∨ strStartsWithChar (jsTrim s) '{' = true
    · cases hp : jsonParse (jsTrim s) with
      | some v =>
        rw [hdr (asArray v) (parseHistory_brack_parse s hbr v hp)]
        exact normalize_brack_parse s hbr v hp
      | none =>
        cases hp2 : jsonParse (unescapeDouble (jsTrim s)) with
        | some v =>
          rw [hdr (asArray v) (parseHistory_brack_reparse s hbr hp v hp2)]
          exact normalize_brack_reparse s hbr hp v hp2
        | none =>
          rcases hcase with h | h | h
          · exact absurd hbr h
          · exact absurd hp h
          · exact absurd hp2 h
    · push_neg at hbr
      obtain ⟨h1, h2⟩ := hbr
      replace h1 : strStartsWithChar (jsTrim s) '[' = false := by
        cases hx : strStartsWithChar (jsTrim s) '[' with
        | true => exact absurd hx h1
        | false => rfl
      replace h2 : strStartsWithChar (jsTrim s) '{' = false := by
        cases hx : strStartsWithChar (jsTrim s) '{' with
        | true => exact absurd hx h2
        | false => rfl
      rw [hdr [wrapEntry (jsTrim s)] (parseHistory_plain s hne h1 h2)]
      exact normalize_plain s h1 h2

theorem encode_matches_decode_classification_witness :
    normalizeHistoryForStorage (.vStr "abc") =
      .ok ⟨renderVal (.vArr (decodeResult (.vStr "abc")))⟩ :=
  (encode_matches_decode_classification "abc").2.2 (by decide) (Or.inl (by decide))

/-! Row lookup -/



theorem mapRowObjAux_eq (row : List JVal) :
    ∀ (hs : List JVal) (idx : Nat) (obj : List (String × JVal)),
      mapRowObjAux row hs idx obj = .ok (rowRecordAux row hs idx obj) := by
  intro hs
  induction hs with
  | nil => intro idx obj; rfl
  | cons h hs ih =>
    intro idx obj
    simp only [mapRowObjAux, rowRecordAux]
    by_cases hh : isVStrEq h "history" = true
    · simp only [hh, if_true, parseHistory_eq]
      exact ih (idx + 1) _
    · simp [hh, ih]

theorem mapRowObj_eq (headers row : List JVal) :
    mapRowObj headers row = .ok (rowRecord headers row) :=
  mapRowObjAux_eq row headers 0 []



theorem scanRows_first_match (headers : List JVal) (idx : Nat) (needle : String) :
    ∀ (rows : List (List JVal)) (i : Nat) (hi : i < rows.length) (j : Nat),
      (∀ k, k < i → cellNorm (rows.getD k []) idx ≠ needle) →
      cellNorm (rows.get ⟨i, hi⟩) idx = needle →
      scanRows headers idx needle rows j =
        .ok (some (j + i + 2, rowRecord headers (rows.get ⟨i, hi⟩))) := by
  intro rows
  induction rows with
  | nil => intro i hi; simp at hi
  | cons r rest ih =>
    intro i hi j hbefore hmatch
    cases i with
    | zero =>
      simp only [List.get] at hmatch
      simp only [scanRows]
      rw [if_pos (by simpa [cellNorm] using hmatch)]
      simp [mapRowObj_eq]
    | succ n =>
      have h0 : ¬ (jsToUpper (jsTrim (replaceNbsp (rawCellString r idx))) = needle) := by
        have := hbefore 0 (by omega)
        simpa [cellNorm] using this
      simp only [scanRows]
      rw [if_neg h0]
      have hrec := ih n (by simpa using hi) (j + 1)
        (fun k hk => by simpa using hbefore (k + 1) (by omega))
        (by simpa using hmatch)
      rw [show j + (n + 1) + 2 = (j + 1) + n + 2 by omega]
      simpa using hrec

theorem getRow_falsy (t : JVal) (vals : List (List JVal))
    (hfalsy : jsTruthy t = false) :
    getRowByTrackingId t vals = .ok none := by
  simp [getRowByTrackingId, hfalsy]

/-- Claim C9: a falsy needle (empty string, `undefined`, `null`, …) yields
the not-found result without scanning and without the configuration error,
whatever the sheet contents — in particular an empty needle never matches an
empty identifier cell. -/
theorem falsy_needle_not_found (t : JVal) (vals : List (List JVal))
    (hfalsy : jsTruthy t = false) :
    getRowByTrackingId t vals = .ok none :=
  getRow_falsy t vals hfalsy

theorem falsy_needle_not_found_witness :
    getRowByTrackingId (.vStr "") [[.vStr "trackingId"], [.vStr ""]] = .ok none :=
  falsy_needle_not_found (.vStr "") [[.vStr "trackingId"], [.vStr ""]] (by decide)

theorem getRow_short_sheet (t : JVal) (vals : List (List JVal))
    (hlen : vals.length < 2) :
    getRowByTrackingId t vals = .ok none := by
  by_cases ht : jsTruthy t = true
  · simp [getRowByTrackingId, ht, hlen]
  · simp [getRowByTrackingId, ht]

/-- Claim C10: when the fetched grid has fewer than two rows, the result is
not-found before the header is inspected, so the configuration error is
never raised — even if the identifier column is absent. -/
theorem short_sheet_not_found (t : JVal) (vals : List (List JVal))
    (hlen : vals.length < 2) :
    getRowByTrackingId t vals = .ok none :=
  getRow_short_sheet t vals hlen

theorem short_sheet_not_found_witness :
    getRowByTrackingId (.vStr "TKS12345678") [[.vStr "someOtherColumn"]] = .ok none :=
  short_sheet_not_found (.vStr "TKS12345678") [[.vStr "someOtherColumn"]] (by decide)

/-- Claim C5: with a (truthy) needle and at least one data row, a header row in
which no cell trims to `trackingId` makes `getRowByTrackingId` throw the
configuration error — it never silently defaults. -/
theorem missing_column_error (t : JVal) (vals : List (List JVal))
    (htruthy : jsTruthy t = true) (hlen : 2 ≤ vals.length)
    (habsent : ∀ h ∈ vals.headD [], jsTrim (jsToString (headerCell h)) ≠ "trackingId") :
    getRowByTrackingId t vals = .error "trackingId column not found in headers" := by
  simp only [getRowByTrackingId, htruthy]
  rw [if_neg (by simp), if_neg (by omega)]
  have hnone : ((vals.headD []).map headerCell).findIdx?
      (fun h => jsTrim (jsToString h) = "trackingId") = none := by
    rw [List.findIdx?_eq_none_iff]
    intro x hx
    rw [List.mem_map] at hx
    obtain ⟨h, hh, rfl⟩ := hx
    simpa using habsent h hh
  rw [hnone]

theorem missing_column_error_witness :
    getRowByTrackingId (.vStr "TKS12345678") [[.vStr "id", .vStr "status"], [.vStr "TKS12345678"]]
      = .error "trackingId column not found in headers" := by
  have := missing_column_error (.vStr "TKS12345678")
    [[.vStr "id", .vStr "status"], [.vStr "TKS12345678"]] (by decide) (by decide)
    (by intro h hh; fin_cases hh <;> decide)
  exact this

theorem getRow_first_match (t : JVal) (header : List JVal) (rows : List (List JVal))
    (idx i : Nat) (hi : i < rows.length)
    (htruthy : jsTruthy t = true)
    (hcol : (header.map headerCell).findIdx?
      (fun h => jsTrim (jsToString h) = "trackingId") = some idx)
    (hmatch : cellNorm (rows.get ⟨i, hi⟩) idx = needleNorm t)
    (hbefore : ∀ k, k < i → cellNorm (rows.getD k []) idx ≠ needleNorm t) :
    getRowByTrackingId t (header :: rows) =
      .ok (some (i + 2, rowRecord (header.map headerCell) (rows.get ⟨i, hi⟩))) := by
  simp only [getRowByTrackingId, htruthy]
  rw [if_neg (by simp)]
  rw [if_neg (by simp; omega)]
  simp only [List.headD_cons, List.tail_cons]
  rw [hcol]
  have := scanRows_first_match (header.map headerCell) idx (needleNorm t) rows i hi 0
    hbefore hmatch
  simpa [needleNorm] using this


/-- Claim C6: when the header row locates the identifier column and some data row's
normalized identifier cell equals the normalized needle, the first such row
(in storage order) is returned, with its mapped record, at sheet position
`i + 2` (1-based position including the header row: the first data row is
position 2). -/
theorem first_match_returned (t : JVal) (header : List JVal) (rows : List (List JVal))
    (idx i : Nat) (hi : i < rows.length)
    (htruthy : jsTruthy t = true)
    (hcol : (header.map headerCell).findIdx?
      (fun h => jsTrim (jsToString h) = "trackingId") = some idx)
    (hmatch : cellNorm (rows.get ⟨i, hi⟩) idx = needleNorm t)
    (hbefore : ∀ k, k < i → cellNorm (rows.getD k []) idx ≠ needleNorm t) :
    getRowByTrackingId t (header :: rows) =
      .ok (some (i + 2, rowRecord (header.map headerCell) (rows.get ⟨i, hi⟩))) :=
  getRow_first_match t header rows idx i hi htruthy hcol hmatch hbefore

theorem first_match_returned_witness :
    getRowByTrackingId (.vStr "tks2")
        [[.vStr "trackingId"], [.vStr "TKS1"], [.vStr "TKS2"], [.vStr "TKS2"]] =
      .ok (some (3, [("trackingId", .vStr "TKS2")])) := by
  have h := first_match_returned (.vStr "tks2")
    [.vStr "trackingId"] [[.vStr "TKS1"], [.vStr "TKS2"], [.vStr "TKS2"]] 0 1 (by decide)
    (by decide) (by decide) (by decide)
    (by intro k hk; interval_cases k; decide)
  exact h.trans (by rfl)

theorem scanRows_no_match (headers : List JVal) (idx : Nat) (needle : String) :
    ∀ (rows : List (List JVal)) (j : Nat),
      (∀ row ∈ rows, cellNorm row idx ≠ needle) →
      scanRows headers idx needle rows j = .ok none := by
  intro rows
  induction rows with
  | nil => intro j _; rfl
  | cons r rest ih =>
    intro j hno
    simp only [scanRows]
    rw [if_neg (by simpa [cellNorm] using hno r (by simp))]
    exact ih (j + 1) (fun row hrow => hno row (by simp [hrow]))

theorem no_match_not_found (t : JVal) (header : List JVal) (rows : List (List JVal)) (idx : Nat)
    (hcol : (header.map headerCell).findIdx?
      (fun h => jsTrim (jsToString h) = "trackingId") = some idx)
    (hnone : ∀ row ∈ rows, cellNorm row idx ≠ needleNorm t) :
    getRowByTrackingId t (header :: rows) = .ok none := by
  by_cases htruthy : jsTruthy t = true
  · cases rows with
    | nil => exact getRow_short_sheet t [header] (by simp)
    | cons r rest =>
      simp only [getRowByTrackingId, htruthy]
      rw [if_neg (by simp)]
      rw [if_neg (by simp)]
      simp only [List.headD_cons, List.tail_cons]
      rw [hcol]
      simpa [needleNorm] using scanRows_no_match (header.map headerCell) idx (needleNorm t)
        (r :: rest) 0 hnone
  · exact getRow_falsy t _ (by simpa using htruthy)

/-- Claim C4 (counterexample): the code does not replace NBSP in the needle, only
in the cell.  The needle `"a b"` (with an interior NBSP) and the cell
`"A B"` have equal normalized forms under the claimed normalization (NBSP to
space, trim, uppercase), yet the lookup finds no match. -/
theorem needle_normalization_counterexample :
    jsToUpper (jsTrim (replaceNbsp (jsToString (.vStr "a\u00A0b")))) =
      jsToUpper (jsTrim (replaceNbsp (jsToString (.vStr "A B")))) ∧
    getRowByTrackingId (.vStr "a\u00A0b") [[.vStr "trackingId"], [.vStr "A B"]] = .ok none :=
  ⟨by decide, rfl⟩

/-- Claim C4 (amended): each row's identifier cell is normalized by replacing NBSP
with spaces, trimming and uppercasing, but the needle is normalized by
trimming and uppercasing only (interior NBSP in the needle survives; leading
and trailing NBSP are still removed, because NBSP is trim-whitespace);
matching is equality of the two normalized forms.  The claim's example still
matches: needle `"tks12345678"` finds the stored cell `" TKS12345678 "`
(with a trailing NBSP). -/
theorem match_normalization (s : String) (t : JVal) (htruthy : jsTruthy t = true) :
    getRowByTrackingId t [[.vStr "trackingId"], [.vStr s]] =
      .ok (if jsToUpper (jsTrim (replaceNbsp s)) = jsToUpper (jsTrim (jsToString t))
           then some (2, [("trackingId", .vStr s)])
           else none) ∧
    getRowByTrackingId (.vStr "tks12345678")
        [[.vStr "trackingId", .vStr "status"], [.vStr " TKS12345678\u00A0", .vStr "In Transit"]] =
      .ok (some (2, [("trackingId", .vStr " TKS12345678\u00A0"), ("status", .vStr "In Transit")])) := by
  constructor
  · by_cases hm : jsToUpper (jsTrim (replaceNbsp s)) = jsToUpper (jsTrim (jsToString t))
    · rw [if_pos hm]
      have h := getRow_first_match t [.vStr "trackingId"] [[.vStr s]] 0 0 (by simp)
        htruthy (by rfl) hm (fun k hk => absurd hk (by omega))
      exact h.trans (by rfl)
    · rw [if_neg hm]
      exact no_match_not_found t [.vStr "trackingId"] [[.vStr s]] 0 (by rfl)
        (by intro row hrow; simp at hrow; subst hrow; exact hm)
  · have h := getRow_first_match (.vStr "tks12345678") [.vStr "trackingId", .vStr "status"]
      [[.vStr " TKS12345678\u00A0", .vStr "In Transit"]] 0 0 (by simp)
      (by decide) (by rfl) (by decide) (fun k hk => absurd hk (by omega))
    exact h.trans (by rfl)

theorem match_normalization_witness :
    getRowByTrackingId (.vStr "AB") [[.vStr "trackingId"], [.vStr "ab"]] =
      .ok (some (2, [("trackingId", .vStr "ab")])) := by
  have h := (match_normalization "ab" (.vStr "AB") (by decide)).1
  rw [if_pos (by decide)] at h
  exact h

/-! Payload construction -/

/-- Claim C7 (counterexample): the payload construction defaults the history field
on every falsy value (JavaScript `||`), not only on a nullish one (`??`),
and it emits the empty string for a present `null` field rather than its
stringification.  With `history` set to the empty string the emitted cell is
`"[]"`, although `Encode("")` is the serialized single-entry wrap; with
`note` set to `null` the emitted cell is `""`, not `"null"`. -/
theorem payload_nullish_counterexample :
    buildPayload [.vStr "history", .vStr "note"] [("history", .vStr ""), ("note", .vNull)] =
      .ok ["[]", ""] ∧
    normalizeHistoryForStorage (.vStr "") = .ok ⟨renderVal (.vArr [wrapEntry ""])⟩ ∧
    String.mk (renderVal (.vArr [wrapEntry ""])) ≠ "[]" ∧
    jsToString .vNull = "null" := by
  refine ⟨rfl, rfl, by decide, rfl⟩

/-- Claim C7 (amended): the payload construction emits exactly one string per
header column, in header order, for every input record (missing and unknown
fields included): the `history` column becomes
`Encode(record.history if truthy else empty sequence)` (JavaScript `||`),
and every other column becomes the stringified value of that field if it is
present and non-null, else the empty string. -/
theorem payload_one_cell_per_column (headers : List JVal) (rowData : List (String × JVal)) :
    buildPayload headers rowData =
      .ok (headers.map (fun h =>
        if isVStrEq h "history"
        then encodeResult (jsOr (getField rowData "history") (.vArr []))
        else fieldString rowData h)) ∧
    (headers.map (fun h =>
        if isVStrEq h "history"
        then encodeResult (jsOr (getField rowData "history") (.vArr []))
        else fieldString rowData h)).length = headers.length := by
  refine ⟨?_, by simp⟩
  induction headers with
  | nil => rfl
  | cons h hs ih =>
    simp only [buildPayload, List.map_cons]
    by_cases hh : isVStrEq h "history" = true
    · simp only [hh, if_true, normalizeHistoryForStorage_eq]
      simp [ih]
      rfl
    · simp only [hh]
      simp [ih]

/-! Round trip: strings -/

theorem parseHexDigit_hexDigitChar : ∀ k, k < 16 → parseHexDigit (hexDigitChar k) = some k := by
  decide

theorem parseStrBody_escChar (fuel : Nat) (c : Char) (cs : List Char) :
    parseStrBody (fuel + 1) (escChar c ++ cs) = consStr c (parseStrBody fuel cs) := by
  by_cases h1 : c = '"'
  · subst h1; rfl
  by_cases h2 : c = '\\'
  · subst h2; rfl
  by_cases h3 : c = Char.ofNat 8
  · subst h3; rfl
  by_cases h4 : c = Char.ofNat 9
  · subst h4; rfl
  by_cases h5 : c = Char.ofNat 10
  · subst h5; rfl
  by_cases h6 : c = Char.ofNat 12
  · subst h6; rfl
  by_cases h7 : c = Char.ofNat 13
  · subst h7; rfl
  by_cases h8 : c.toNat < 0x20
  · -- control character rendered as a \u00XX escape
    have hdiv : c.toNat / 16 < 16 := by omega
    have hmod : c.toNat % 16 < 16 := by omega
    have hesc : escChar c = ['\\', 'u', '0', '0',
        hexDigitChar (c.toNat / 16), hexDigitChar (c.toNat % 16)] := by
      simp only [escChar]
      rw [if_neg h1, if_neg h2, if_neg h3, if_neg h4, if_neg h5, if_neg h6, if_neg h7, if_pos h8]
    rw [hesc]
    show parseStrBody (fuel + 1) ('\\' :: 'u' :: '0' :: '0' ::
      hexDigitChar (c.toNat / 16) :: hexDigitChar (c.toNat % 16) :: cs) = _
    have hh : hex4 '0' '0' (hexDigitChar (c.toNat / 16)) (hexDigitChar (c.toNat % 16)) =
        some c.toNat := by
      rw [hex4]
      rw [parseHexDigit_hexDigitChar _ hdiv, parseHexDigit_hexDigitChar _ hmod]
      show some (0 * 4096 + 0 * 256 + c.toNat / 16 * 16 + c.toNat % 16) = some c.toNat
      congr 1
      omega
    rw [show parseStrBody (fuel + 1) ('\\' :: 'u' :: '0' :: '0' ::
        hexDigitChar (c.toNat / 16) :: hexDigitChar (c.toNat % 16) :: cs) =
      (match hex4 '0' '0' (hexDigitChar (c.toNat / 16)) (hexDigitChar (c.toNat % 16)) with
       | none => none
       | some n =>
         if n < 0xD800 ∨ 0xE000 ≤ n then consStr (Char.ofNat n) (parseStrBody fuel cs)
         else if n < 0xDC00 then
           (match cs with
            | '\\' :: 'u' :: a2 :: b2 :: c4 :: d2 :: cs4 =>
              match hex4 a2 b2 c4 d2 with
              | some m =>
                if 0xDC00 ≤ m ∧ m < 0xE000 then
                  consStr (Char.ofNat (0x10000 + (n - 0xD800) * 0x400 + (m - 0xDC00)))
                    (parseStrBody fuel cs4)
                else none
              | none => none
            | _ => none)
         else none) from rfl]
    rw [hh]
    have h9 : c.toNat < 55296 := by omega
    simp [h9, Char.ofNat_toNat]
  · -- plain character
    have hesc : escChar c = [c] := by
      simp only [escChar]
      rw [if_neg h1, if_neg h2, if_neg h3, if_neg h4, if_neg h5, if_neg h6, if_neg h7, if_neg h8]
    rw [hesc]
    show parseStrBody (fuel + 1) (c :: cs) = _
    simp only [parseStrBody]
    rw [if_neg h1, if_neg h2, if_neg h8]

theorem parseStrBody_escList (l : List Char) :
    ∀ (fuel : Nat) (rest : List Char), l.length < fuel →
      parseStrBody fuel (l.flatMap escChar ++ '"' :: rest) = some (l, rest) := by
  induction l with
  | nil =>
    intro fuel rest hfuel
    match fuel, hfuel with
    | f + 1, _ => rfl
  | cons c l ih =>
    intro fuel rest hfuel
    match fuel, hfuel with
    | f + 1, hfuel =>
      rw [List.flatMap_cons, List.append_assoc, parseStrBody_escChar,
        ih f rest (by simpa using Nat.lt_of_succ_lt_succ hfuel)]
      rfl

/-! Round trip: values -/

theorem escChar_length_pos (c : Char) : 1 ≤ (escChar c).length := by
  unfold escChar
  split_ifs <;> simp

theorem escList_length_ge (l : List Char) : l.length ≤ (l.flatMap escChar).length := by
  induction l with
  | nil => simp
  | cons c l ih =>
    rw [List.flatMap_cons]
    have := escChar_length_pos c
    simp only [List.length_append, List.length_cons]
    omega

/-- `parseStrBody` at the fuel `parseVal`/`parseMembers` supply, on a
rendered string body. -/
theorem parseStrBody_escList_len (l rest : List Char) :
    parseStrBody ((l.flatMap escChar ++ '"' :: rest).length + 1) (l.flatMap escChar ++ '"' :: rest)
      = some (l, rest) := by
  refine parseStrBody_escList l _ rest ?_
  have := escList_length_ge l
  simp only [List.length_append, List.length_cons]
  omega

theorem parseVal_renderStr (fuel : Nat) (s : String) (rest : List Char) :
    parseVal (fuel + 1) (renderStr s ++ rest) = some (.vStr s, rest) := by
  simp only [renderStr, escString, List.cons_append, List.append_assoc, List.singleton_append]
  simp [parseVal, skipWs, List.dropWhile_cons, isJsonWs]
  rw [parseStrBody_escList s.data _ rest
    (by have := escList_length_ge s.data; simp [List.length_flatMap] at this ⊢; omega)]





theorem hasDefinedMember_of_wf (fields : List (String × JVal))
    (hwf : fields.all (fun p => isStrVal p.2) = true) :
    hasDefinedMember fields = !fields.isEmpty := by
  cases fields with
  | nil => rfl
  | cons p xs =>
    obtain ⟨k, v⟩ := p
    have hv : isStrVal v = true := by
      have := List.all_eq_true.mp hwf (k, v) (by simp)
      simpa using this
    cases v <;> simp_all [hasDefinedMember, isVUndefined, isStrVal]

theorem parseVal_escString (fuel : Nat) (s : String) (rest : List Char) :
    parseVal (fuel + 1) ('"' :: (s.data.flatMap escChar ++ '"' :: rest)) = some (.vStr s, rest) := by
  have := parseVal_renderStr fuel s rest
  simpa [renderStr, escString] using this

theorem parseMembers_renderMembers :
    ∀ (fields : List (String × JVal)) (fuel : Nat) (rest : List Char),
      fields ≠ [] → fields.all (fun p => isStrVal p.2) = true → fields.length + 1 ≤ fuel →
      parseMembers fuel (renderMembers fields ++ rest) = some (fields, rest) := by
  intro fields
  induction fields with
  | nil => intro fuel rest hne; exact absurd rfl hne
  | cons p xs ih =>
    intro fuel rest _ hwf hfuel
    obtain ⟨k, v⟩ := p
    obtain ⟨sv, rfl⟩ : ∃ sv, v = .vStr sv := by
      have := List.all_eq_true.mp hwf (k, v) (by simp)
      cases v <;> simp_all [isStrVal]
    have hwfxs : xs.all (fun p => isStrVal p.2) = true := by
      rw [List.all_cons] at hwf
      exact (Bool.and_eq_true_iff.mp hwf).2
    cases fuel with
    | zero => omega
    | succ f =>
    cases f with
    | zero => simp at hfuel
    | succ f2 =>
    rw [renderMembers]
    rw [if_neg (by simp [isVUndefined])]
    rw [hasDefinedMember_of_wf xs hwfxs]
    cases xs with
    | nil =>
      simp only [List.isEmpty_nil, Bool.not_true, Bool.false_eq_true, if_false]
      simp only [renderVal, renderStr, escString, List.cons_append, List.append_assoc,
        List.singleton_append, List.nil_append]
      simp [parseMembers, skipWs, List.dropWhile_cons, isJsonWs]
      rw [parseStrBody_escList k.data _ _
        (by have := escList_length_ge k.data; simp [List.length_flatMap] at this ⊢; omega)]
      simp [skipWs, List.dropWhile_cons, isJsonWs]
      rw [parseVal_escString f2 sv ('}' :: rest)]
      simp [skipWs, List.dropWhile_cons, isJsonWs]
    | cons q xs2 =>
      simp only [List.isEmpty_cons, Bool.not_false, if_true]
      simp only [renderVal, renderStr, escString, List.cons_append, List.append_assoc,
        List.singleton_append, List.nil_append]
      generalize hF : f2 + 1 = F
      simp [parseMembers, skipWs, List.dropWhile_cons, isJsonWs]
      rw [parseStrBody_escList k.data _ _
        (by have := escList_length_ge k.data; simp [List.length_flatMap] at this ⊢; omega)]
      simp [skipWs, List.dropWhile_cons, isJsonWs]
      rw [← hF]
      rw [parseVal_escString f2 sv]
      simp [skipWs, List.dropWhile_cons, isJsonWs]
      rw [ih (f2 + 1) rest (by simp) hwfxs (by simp at hfuel ⊢; omega)]
theorem entryFuel_pos (e : JVal) : 1 ≤ entryFuel e := by
  cases e with
  | vObj fields => cases fields <;> simp [entryFuel]
  | vUndefined => simp [entryFuel]
  | vNull => simp [entryFuel]
  | vBool b => simp [entryFuel]
  | vNum n => simp [entryFuel]
  | vStr s => simp [entryFuel]
  | vArr xs => simp [entryFuel]

theorem parseVal_renderEntry (e : JVal) :
    ∀ (fuel : Nat) (rest : List Char), isWfEntry e = true → entryFuel e ≤ fuel →
      parseVal fuel (renderVal e ++ rest) = some (e, rest) := by
  intro fuel rest hwf hfuel
  match e, hwf with
  | .vObj fields, hwf =>
    have hwff : fields.all (fun p => isStrVal p.2) = true := by simpa [isWfEntry] using hwf
    cases fuel with
    | zero => have := entryFuel_pos (.vObj fields); omega
    | succ f =>
      cases fields with
      | nil =>
        simp [renderVal, renderMembers, parseVal, skipWs, List.dropWhile_cons, isJsonWs]
      | cons m ms =>
        obtain ⟨k, v⟩ := m
        obtain ⟨sv, rfl⟩ : ∃ sv, v = .vStr sv := by
          have := List.all_eq_true.mp hwff (k, v) (by simp)
          cases v <;> simp_all [isStrVal]
        obtain ⟨t, ht⟩ : ∃ t, renderMembers ((k, .vStr sv) :: ms) = '"' :: t := by
          rw [renderMembers, if_neg (by simp [isVUndefined])]
          exact ⟨escString k ++ '"' :: ':' :: (renderVal (.vStr sv) ++
            (if hasDefinedMember ms = true then ',' :: renderMembers ms else ['}'])),
            by simp [renderStr]⟩
        have hffuel : ((k, .vStr sv) :: ms).length + 1 ≤ f := by
          simp only [entryFuel] at hfuel
          simp at hfuel ⊢
          omega
        simp only [renderVal]
        simp [parseVal, skipWs, List.dropWhile_cons, isJsonWs]
        rw [if_neg (by rw [ht]; simp [skipWs, List.dropWhile_cons, isJsonWs])]
        rw [parseMembers_renderMembers ((k, .vStr sv) :: ms) f rest (by simp) hwff hffuel]

theorem parseElems_renderElems :
    ∀ (es : List JVal) (fuel : Nat) (rest : List Char),
      es ≠ [] → es.all isWfEntry = true → elemsFuel es ≤ fuel →
      parseElems fuel (renderElems es ++ rest) = some (es, rest) := by
  intro es
  induction es with
  | nil => intro fuel rest hne; exact absurd rfl hne
  | cons e es2 ih =>
    intro fuel rest _ hwf hfuel
    have hwfe : isWfEntry e = true := by
      rw [List.all_cons] at hwf
      exact (Bool.and_eq_true_iff.mp hwf).1
    have hwfes2 : es2.all isWfEntry = true := by
      rw [List.all_cons] at hwf
      exact (Bool.and_eq_true_iff.mp hwf).2
    have hef := entryFuel_pos e
    cases fuel with
    | zero => simp [elemsFuel] at hfuel
    | succ f =>
      have hfe : entryFuel e ≤ f := by simp [elemsFuel] at hfuel; omega
      cases es2 with
      | nil =>
        rw [show renderElems [e] = renderVal e ++ [']'] from rfl]
        rw [List.append_assoc]
        simp only [List.singleton_append]
        simp only [parseElems]
        rw [parseVal_renderEntry e f (']' :: rest) hwfe hfe]
        simp [skipWs, List.dropWhile_cons, isJsonWs]
      | cons e2 es3 =>
        rw [show renderElems (e :: e2 :: es3) = renderVal e ++ ',' :: renderElems (e2 :: es3)
          from rfl]
        rw [List.append_assoc]
        simp only [List.cons_append]
        simp only [parseElems]
        rw [parseVal_renderEntry e f (',' :: (renderElems (e2 :: es3) ++ rest)) hwfe hfe]
        simp only [List.cons_append]
        simp [skipWs, List.dropWhile_cons, isJsonWs]
        rw [ih f rest (by simp) hwfes2 (by simp [elemsFuel] at hfuel ⊢; omega)]
theorem renderStr_length (s : String) : (renderStr s).length = 2 + (escString s).length := by
  simp [renderStr]
  omega

theorem renderMembers_length_ge :
    ∀ (fields : List (String × JVal)), fields.all (fun p => isStrVal p.2) = true →
      fields.length + 1 ≤ (renderMembers fields).length := by
  intro fields
  induction fields with
  | nil => simp [renderMembers]
  | cons p xs ih =>
    intro hwf
    obtain ⟨k, v⟩ := p
    obtain ⟨sv, rfl⟩ : ∃ sv, v = .vStr sv := by
      have := List.all_eq_true.mp hwf (k, v) (by simp)
      cases v <;> simp_all [isStrVal]
    have hwfxs : xs.all (fun p => isStrVal p.2) = true := by
      rw [List.all_cons] at hwf
      exact (Bool.and_eq_true_iff.mp hwf).2
    rw [renderMembers, if_neg (by simp [isVUndefined])]
    cases hxs : xs with
    | nil =>
      simp [renderVal, renderStr_length, hasDefinedMember]
      omega
    | cons q xs2 =>
      subst hxs
      rw [hasDefinedMember_of_wf (q :: xs2) hwfxs]
      have := ih hwfxs
      simp only [List.isEmpty_cons, Bool.not_false, if_true]
      simp [renderVal, renderStr_length] at this ⊢
      omega

theorem entryFuel_le_render (e : JVal) (hwf : isWfEntry e = true) :
    entryFuel e ≤ (renderVal e).length := by
  match e, hwf with
  | .vObj fields, hwf =>
    have hwff : fields.all (fun p => isStrVal p.2) = true := by simpa [isWfEntry] using hwf
    cases fields with
    | nil => simp [entryFuel, renderVal, renderMembers]
    | cons m ms =>
      have := renderMembers_length_ge (m :: ms) hwff
      simp only [entryFuel, renderVal]
      simp at this ⊢
      omega

theorem elemsFuel_le_render :
    ∀ (es : List JVal), es.all isWfEntry = true → elemsFuel es ≤ (renderElems es).length := by
  intro es
  induction es with
  | nil => simp [elemsFuel, renderElems]
  | cons e es2 ih =>
    intro hwf
    have hwfe : isWfEntry e = true := by
      rw [List.all_cons] at hwf
      exact (Bool.and_eq_true_iff.mp hwf).1
    have hwfes2 : es2.all isWfEntry = true := by
      rw [List.all_cons] at hwf
      exact (Bool.and_eq_true_iff.mp hwf).2
    have he := entryFuel_le_render e hwfe
    cases es2 with
    | nil =>
      rw [show renderElems [e] = renderVal e ++ [']'] from rfl]
      simp [elemsFuel]
      omega
    | cons e2 es3 =>
      have := ih hwfes2
      rw [show renderElems (e :: e2 :: es3) = renderVal e ++ ',' :: renderElems (e2 :: es3)
        from rfl]
      simp [elemsFuel] at this ⊢
      omega
theorem parseVal_renderArr (es : List JVal) (fuel : Nat) (rest : List Char)
    (hwf : es.all isWfEntry = true) (hfuel : 1 + elemsFuel es ≤ fuel) :
    parseVal fuel (renderVal (.vArr es) ++ rest) = some (.vArr es, rest) := by
  cases fuel with
  | zero => omega
  | succ f =>
    rw [show renderVal (.vArr es) = '[' :: renderElems es from rfl]
    cases es with
    | nil =>
      simp [renderElems, parseVal, skipWs, List.dropWhile_cons, isJsonWs]
    | cons e es2 =>
      have hwfe : isWfEntry e = true := by
        rw [List.all_cons] at hwf
        exact (Bool.and_eq_true_iff.mp hwf).1
      obtain ⟨fields, rfl⟩ : ∃ fields, e = .vObj fields := by
        cases e <;> simp_all [isWfEntry]
      obtain ⟨t, ht⟩ : ∃ t, renderElems (.vObj fields :: es2) = '{' :: t := by
        cases es2 with
        | nil => exact ⟨renderMembers fields ++ [']'], by simp [renderElems, renderVal]⟩
        | cons e2 es3 =>
          exact ⟨renderMembers fields ++ ',' :: renderElems (e2 :: es3),
            by simp [renderElems, renderVal]⟩
      simp only [List.cons_append]
      simp [parseVal, skipWs, List.dropWhile_cons, isJsonWs]
      rw [if_neg (by rw [ht]; simp [skipWs, List.dropWhile_cons, isJsonWs])]
      rw [parseElems_renderElems (.vObj fields :: es2) f rest (by simp) hwf (by omega)]
theorem jsonParse_render (es : List JVal) (hwf : es.all isWfEntry = true) :
    jsonParse ⟨renderVal (.vArr es)⟩ = some (.vArr es) := by
  have hfuel : 1 + elemsFuel es ≤ (renderVal (.vArr es)).length + 1 := by
    have := elemsFuel_le_render es hwf
    rw [show renderVal (.vArr es) = '[' :: renderElems es from rfl]
    simp
    omega
  have hp := parseVal_renderArr es ((renderVal (.vArr es)).length + 1) [] hwf hfuel
  rw [List.append_nil] at hp
  show (match parseVal ((renderVal (.vArr es)).length + 1) (renderVal (.vArr es)) with
    | some (v, rest) => if (skipWs rest).isEmpty then some v else none
    | none => none) = some (.vArr es)
  rw [hp]
  rfl

theorem renderElems_getLast :
    ∀ (es : List JVal), (renderElems es).getLast? = some ']' := by
  intro es
  induction es with
  | nil => rfl
  | cons e es2 ih =>
    cases es2 with
    | nil =>
      rw [show renderElems [e] = renderVal e ++ [']'] from rfl]
      exact List.getLast?_concat _
    | cons e2 es3 =>
      rw [show renderElems (e :: e2 :: es3) = renderVal e ++ ',' :: renderElems (e2 :: es3)
        from rfl]
      rw [List.getLast?_append]
      have hne : renderElems (e2 :: es3) ≠ [] := by
        intro hcon
        rw [hcon] at ih
        simp at ih
      cases hR : renderElems (e2 :: es3) with
      | nil => exact absurd hR hne
      | cons c cs =>
        rw [hR] at ih
        rw [List.getLast?_cons_cons]
        rw [ih]
        rfl

theorem jsTrimChars_bracket (t : List Char) (hlast : t.getLast? = some ']') :
    jsTrimChars ('[' :: t) = '[' :: t := by
  unfold jsTrimChars
  rw [List.dropWhile_cons]
  rw [if_neg (by decide)]
  have hhead : ('[' :: t).reverse.head? = some ']' := by
    rw [List.head?_reverse]
    have hne : t ≠ [] := by
      intro hcon
      rw [hcon] at hlast
      simp at hlast
    cases t with
    | nil => exact absurd rfl hne
    | cons c cs =>
      rw [List.getLast?_cons_cons]
      exact hlast
  cases hR : ('[' :: t).reverse with
  | nil => simp at hR
  | cons c cs =>
    rw [hR] at hhead
    simp at hhead
    subst hhead
    rw [List.dropWhile_cons]
    rw [if_neg (by decide)]
    rw [← hR, List.reverse_reverse]
/-- Claim C1: for every sequence of well-formed history entries (an array of
objects with string fields), encoding with `normalizeHistoryForStorage` and
decoding the stored string with `parseHistory` yields the original sequence:
`Decode(Encode(h)) = h`. -/
theorem history_roundtrip (h : List JVal) (hwf : h.all isWfEntry = true) :
    normalizeHistoryForStorage (.vArr h) = .ok ⟨renderVal (.vArr h)⟩ ∧
    parseHistory (.vStr ⟨renderVal (.vArr h)⟩) = .ok h := by
  have henc : normalizeHistoryForStorage (.vArr h) = .ok ⟨renderVal (.vArr h)⟩ := by
    simp [normalizeHistoryForStorage, isVUndefined, isVNull, tryCatchE]
  refine ⟨henc, ?_⟩
  have htrim : jsTrim ⟨renderVal (.vArr h)⟩ = ⟨renderVal (.vArr h)⟩ := by
    show String.mk (jsTrimChars (renderVal (.vArr h))) = _
    rw [show renderVal (.vArr h) = '[' :: renderElems h from rfl]
    rw [jsTrimChars_bracket _ (renderElems_getLast h)]
  have hbr : strStartsWithChar (jsTrim ⟨renderVal (.vArr h)⟩) '[' = true := by
    rw [htrim]
    rw [show renderVal (.vArr h) = '[' :: renderElems h from rfl]
    simp [strStartsWithChar]
  have hparse : jsonParse (jsTrim ⟨renderVal (.vArr h)⟩) = some (.vArr h) := by
    rw [htrim]
    exact jsonParse_render h hwf
  have := parseHistory_brack_parse ⟨renderVal (.vArr h)⟩ (Or.inl hbr) (.vArr h) hparse
  simpa [asArray] using this

theorem history_roundtrip_witness :
    normalizeHistoryForStorage
        (.vArr [wrapEntry "Shipment received", .vObj [("date", .vStr "2025-02-01"),
          ("location", .vStr "Singapore Hub"), ("message", .vStr "In \"transit\"\n")]]) =
      .ok ⟨renderVal (.vArr [wrapEntry "Shipment received", .vObj [("date", .vStr "2025-02-01"),
          ("location", .vStr "Singapore Hub"), ("message", .vStr "In \"transit\"\n")]])⟩ ∧
    parseHistory (.vStr ⟨renderVal (.vArr [wrapEntry "Shipment received",
          .vObj [("date", .vStr "2025-02-01"), ("location", .vStr "Singapore Hub"),
            ("message", .vStr "In \"transit\"\n")]])⟩) =
      .ok [wrapEntry "Shipment received", .vObj [("date", .vStr "2025-02-01"),
          ("location", .vStr "Singapore Hub"), ("message", .vStr "In \"transit\"\n")]] :=
  history_roundtrip _ (by decide)
end Sheets
